import Mathlib

/-!
Verification of the per-node heat-diffusion stencil and boundary-exchange
protocol of `apps/heat/heat.c`.

The C program is shallowly embedded below:
machine `int` values are modelled as `Int` with explicit wrapping to the
32-bit two's-complement range where overflow can occur, unsigned words and
bit manipulations as `Nat` with the standard bitwise operators, message
buffers as structures of a tag word plus payload words, and the
send/receive/buffer state machine of the exchange loop as an explicit step
relation.
-/

namespace Heat

/-- Directions, from the source enum (N=0, S=1, E=2, W=3). -/
inductive Dir : Type
  | N
  | S
  | E
  | W
deriving DecidableEq

/-- Given a direction, return the opposite direction (from `opposite` in heat.c). -/
def opposite : Dir → Dir
  | Dir.N => Dir.S
  | Dir.S => Dir.N
  | Dir.E => Dir.W
  | Dir.W => Dir.E

/-- Numeric value of the enum constant in the C source. -/
def dirToNat : Dir → Nat
  | Dir.N => 0
  | Dir.S => 1
  | Dir.E => 2
  | Dir.W => 3

/-- Conversion of a word back to a direction, as performed by the C cast
`Dir d = msg[0] >> 1` (values above 3 cannot arise from a well-formed tag). -/
def dirOfNat : Nat → Dir
  | 0 => Dir.N
  | 1 => Dir.S
  | 2 => Dir.E
  | _ => Dir.W

/-- Tag word placed in the first word of every boundary message, from
`edgeOut[d][0] = (opposite(d) << 1) | (t & 1)` in heat.c. -/
def encodeTag (d : Dir) (t : Nat) : Nat :=
  (dirToNat (opposite d) <<< 1) ||| (t &&& 1)

/-- Direction field extracted by the receiver, from `Dir d = msg[0] >> 1`. -/
def tagDir (w : Nat) : Dir := dirOfNat (w >>> 1)

/-- Phase bit extracted by the receiver, from `msg[0] & 1`. -/
def tagPhase (w : Nat) : Nat := w &&& 1

/-- C9: decoding the tag word `(opposite(d) << 1) | (t & 1)` by taking
`(w >> 1, w & 1)` recovers exactly the direction `opposite d` and the phase
bit `t & 1`: the receiver's decoded fields always equal the sender's. -/
theorem tag_encode_decode_roundtrip (d : Dir) (t : Nat) :
    tagDir (encodeTag d t) = opposite d ∧
    (encodeTag d t) >>> 1 = dirToNat (opposite d) ∧
    tagPhase (encodeTag d t) = t &&& 1 := by
  have ht : t &&& 1 = t % 2 := Nat.and_pow_two_sub_one_eq_mod t 1
  rcases Nat.mod_two_eq_zero_or_one t with h | h <;>
    cases d <;>
      simp [tagDir, tagPhase, encodeTag, dirToNat, dirOfNat, opposite, ht, h]

/-!
Topology resolution (heat.c lines 33-54).  The mesh side length is
`len = 1 << logLen`; thread `me` sits at `(xPos, yPos) = (me & (len-1), me >> logLen)`
and its four potential neighbours are computed by incrementing or
decrementing the corresponding coordinate, or absent (`-1` in the source,
`none` here) at the grid edges.
-/

/-- Mesh side length, from `const uint32_t len = 1 << logLen`. -/
def len (logLen : Nat) : Nat := 1 <<< logLen

/-- X position of a thread in the grid, from `me & (len-1)`. -/
def xPosOf (logLen me : Nat) : Nat := me &&& (len logLen - 1)

/-- Y position of a thread in the grid, from `me >> logLen`. -/
def yPosOf (logLen me : Nat) : Nat := me >>> logLen

/-- Neighbour resolution, from the four assignments to `neighbour[]` in heat.c
(`-1`, i.e. no neighbour, becomes `none`). -/
def neighbour (logLen me : Nat) : Dir → Option Nat
  | Dir.N => if yPosOf logLen me = 0 then none
             else some (((yPosOf logLen me - 1) <<< logLen) ||| xPosOf logLen me)
  | Dir.S => if yPosOf logLen me = len logLen - 1 then none
             else some (((yPosOf logLen me + 1) <<< logLen) ||| xPosOf logLen me)
  | Dir.E => if xPosOf logLen me = len logLen - 1 then none
             else some ((yPosOf logLen me <<< logLen) ||| (xPosOf logLen me + 1))
  | Dir.W => if xPosOf logLen me = 0 then none
             else some ((yPosOf logLen me <<< logLen) ||| (xPosOf logLen me - 1))

theorem len_eq_pow (n : Nat) : len n = 2 ^ n := by
  simp [len, Nat.shiftLeft_eq]

theorem encode_or (n y x : Nat) (hx : x < 2 ^ n) :
    (y <<< n) ||| x = y * 2 ^ n + x := by
  rw [Nat.shiftLeft_eq, Nat.mul_comm y (2 ^ n), ← Nat.mul_add_lt_is_or hx]

theorem xPosOf_eq_mod (n me : Nat) : xPosOf n me = me % 2 ^ n := by
  rw [xPosOf, len_eq_pow, Nat.and_pow_two_sub_one_eq_mod]

theorem yPosOf_eq_div (n me : Nat) : yPosOf n me = me / 2 ^ n := by
  rw [yPosOf, Nat.shiftRight_eq_div_pow]

theorem xPosOf_encode (n y x : Nat) (hx : x < 2 ^ n) :
    xPosOf n ((y <<< n) ||| x) = x := by
  rw [xPosOf_eq_mod, encode_or n y x hx, Nat.mul_comm, Nat.mul_add_mod,
    Nat.mod_eq_of_lt hx]

theorem yPosOf_encode (n y x : Nat) (hx : x < 2 ^ n) :
    yPosOf n ((y <<< n) ||| x) = y := by
  rw [yPosOf_eq_div, encode_or n y x hx, Nat.mul_comm,
    Nat.mul_add_div (Nat.two_pow_pos n), Nat.div_eq_of_lt hx, Nat.add_zero]

theorem decode_encode (n me : Nat) :
    (yPosOf n me <<< n) ||| xPosOf n me = me := by
  rw [encode_or n _ _ (by rw [xPosOf_eq_mod]; exact Nat.mod_lt _ (Nat.two_pow_pos n)),
    yPosOf_eq_div, xPosOf_eq_mod, Nat.mul_comm, Nat.div_add_mod]

/-- C5: for all valid node identities (`me < len * len`), if node A's topology
resolution lists node B as its neighbour in direction d, then node B's
topology resolution lists node A as its neighbour in direction `opposite d`. -/
theorem topology_symmetry (n me b : Nat) (d : Dir)
    (hme : me < len n * len n)
    (h : neighbour n me d = some b) :
    neighbour n b (opposite d) = some me := by
  have hx : xPosOf n me < 2 ^ n := by
    rw [xPosOf_eq_mod]; exact Nat.mod_lt _ (Nat.two_pow_pos n)
  have hy : yPosOf n me < 2 ^ n := by
    rw [yPosOf_eq_div]
    rw [len_eq_pow] at hme
    exact (Nat.div_lt_iff_lt_mul (Nat.two_pow_pos n)).mpr hme
  cases d with
  | N =>
    simp only [neighbour, opposite] at h ⊢
    by_cases h0 : yPosOf n me = 0
    · rw [if_pos h0] at h; exact absurd h (by simp)
    · rw [if_neg h0] at h
      obtain rfl : ((yPosOf n me - 1) <<< n) ||| xPosOf n me = b := Option.some.inj h
      rw [xPosOf_encode n _ _ hx, yPosOf_encode n _ _ hx]
      have hguard : ¬(yPosOf n me - 1 = len n - 1) := by rw [len_eq_pow]; omega
      rw [if_neg hguard]
      have hy1 : yPosOf n me - 1 + 1 = yPosOf n me := by omega
      rw [hy1, decode_encode]
  | S =>
    simp only [neighbour, opposite] at h ⊢
    by_cases h0 : yPosOf n me = len n - 1
    · rw [if_pos h0] at h; exact absurd h (by simp)
    · rw [if_neg h0] at h
      obtain rfl : ((yPosOf n me + 1) <<< n) ||| xPosOf n me = b := Option.some.inj h
      rw [xPosOf_encode n _ _ hx, yPosOf_encode n _ _ hx]
      have hguard : ¬(yPosOf n me + 1 = 0) := by omega
      rw [if_neg hguard, Nat.add_sub_cancel, decode_encode]
  | E =>
    simp only [neighbour, opposite] at h ⊢
    by_cases h0 : xPosOf n me = len n - 1
    · rw [if_pos h0] at h; exact absurd h (by simp)
    · rw [if_neg h0] at h
      obtain rfl : (yPosOf n me <<< n) ||| (xPosOf n me + 1) = b := Option.some.inj h
      rw [len_eq_pow] at h0
      have hx1 : xPosOf n me + 1 < 2 ^ n := by omega
      rw [xPosOf_encode n _ _ hx1, yPosOf_encode n _ _ hx1]
      have hguard : ¬(xPosOf n me + 1 = 0) := by omega
      rw [if_neg hguard, Nat.add_sub_cancel, decode_encode]
  | W =>
    simp only [neighbour, opposite] at h ⊢
    by_cases h0 : xPosOf n me = 0
    · rw [if_pos h0] at h; exact absurd h (by simp)
    · rw [if_neg h0] at h
      obtain rfl : (yPosOf n me <<< n) ||| (xPosOf n me - 1) = b := Option.some.inj h
      have hx1 : xPosOf n me - 1 < 2 ^ n := by omega
      rw [xPosOf_encode n _ _ hx1, yPosOf_encode n _ _ hx1]
      have hguard : ¬(xPosOf n me - 1 = len n - 1) := by rw [len_eq_pow]; omega
      rw [if_neg hguard]
      have hx2 : xPosOf n me - 1 + 1 = xPosOf n me := by omega
      rw [hx2, decode_encode]

/-- Witness for C5: in a 2x2 mesh (logLen = 1), thread 0's south neighbour is
thread 2, and thread 2's north neighbour is thread 0. -/
theorem topology_symmetry_witness :
    (0 : Nat) < len 1 * len 1 ∧ neighbour 1 0 Dir.S = some 2 ∧
    neighbour 1 2 (opposite Dir.S) = some 0 :=
  ⟨by decide, by decide, topology_symmetry 1 0 2 Dir.S (by decide) (by decide)⟩

/-!
Stencil update (heat.c lines 142-164).  Cell values are C `int`s holding
16.16 fixed-point temperatures; machine arithmetic is modelled on `Int`
with `wrap32` normalising into the two's-complement range after every
operation that can overflow.
-/

/-- Normalisation of an integer into the 32-bit two's-complement range,
modelling the wrap-around of C `int` arithmetic on the target. -/
def wrap32 (z : Int) : Int := (z + 2 ^ 31) % 2 ^ 32 - 2 ^ 31

/-- The left input of the stencil, from
`int l = x == 0 ? edgeIn[W][y+1] : subgrid[y][x-1]`. -/
def gatherL (subgrid : Nat → Nat → Int) (edgeIn : Dir → Nat → Int)
    (y x : Nat) : Int :=
  if x = 0 then edgeIn Dir.W (y + 1) else subgrid y (x - 1)

/-- The right input of the stencil, from
`int r = x == (L-1) ? edgeIn[E][y+1] : subgrid[y][x+1]`. -/
def gatherR (L : Nat) (subgrid : Nat → Nat → Int) (edgeIn : Dir → Nat → Int)
    (y x : Nat) : Int :=
  if x = L - 1 then edgeIn Dir.E (y + 1) else subgrid y (x + 1)

/-- The above input of the stencil, from
`int a = y == 0 ? edgeIn[N][x+1] : subgrid[y-1][x]`. -/
def gatherA (subgrid : Nat → Nat → Int) (edgeIn : Dir → Nat → Int)
    (y x : Nat) : Int :=
  if y = 0 then edgeIn Dir.N (x + 1) else subgrid (y - 1) x

/-- The below input of the stencil, from
`int b = y == (L-1) ? edgeIn[S][x+1] : subgrid[y+1][x]`. -/
def gatherB (L : Nat) (subgrid : Nat → Nat → Int) (edgeIn : Dir → Nat → Int)
    (y x : Nat) : Int :=
  if y = L - 1 then edgeIn Dir.S (x + 1) else subgrid (y + 1) x

/-- Average of the surrounding temperatures, from
`int surroundings = (a + b + l + r) >> 2` (the sum wraps, the shift is
arithmetic). -/
def surroundingsOf (a b l r : Int) : Int := wrap32 (a + b + l + r) >>> (2 : Nat)

/-- New temperature written for cell (y, x), from
`int newTemp = subgrid[y][x] - (subgrid[y][x] - surroundings)` followed by
`newSubgrid[y][x] = newTemp`. -/
def stencilCell (L : Nat) (subgrid : Nat → Nat → Int) (edgeIn : Dir → Nat → Int)
    (y x : Nat) : Int :=
  let l := gatherL subgrid edgeIn y x
  let r := gatherR L subgrid edgeIn y x
  let a := gatherA subgrid edgeIn y x
  let b := gatherB L subgrid edgeIn y x
  let s := surroundingsOf a b l r
  wrap32 (subgrid y x - wrap32 (subgrid y x - s))

/-- The next subgrid produced by one pass of the update loop. -/
def nextSubgrid (L : Nat) (subgrid : Nat → Nat → Int)
    (edgeIn : Dir → Nat → Int) : Nat → Nat → Int :=
  fun y x => stencilCell L subgrid edgeIn y x

/-- Outgoing edge buffers as populated by the update loop
(`if (y == 0) edgeOut[N][x+1] = newTemp;` and the three analogous writes);
slot `i` with `1 ≤ i ≤ L` holds the new value of the cell at offset
`i - 1` along the corresponding edge of the subgrid. -/
def edgeOutAfter (L : Nat) (subgrid : Nat → Nat → Int)
    (edgeIn : Dir → Nat → Int) : Dir → Nat → Int
  | Dir.N, i => stencilCell L subgrid edgeIn 0 (i - 1)
  | Dir.S, i => stencilCell L subgrid edgeIn (L - 1) (i - 1)
  | Dir.W, i => stencilCell L subgrid edgeIn (i - 1) 0
  | Dir.E, i => stencilCell L subgrid edgeIn (i - 1) (L - 1)

theorem dvd_sub_wrap32 (z : Int) : (2 ^ 32 : Int) ∣ (z - wrap32 z) := by
  have h : z - wrap32 z = 2 ^ 32 * ((z + 2 ^ 31) / 2 ^ 32) := by
    rw [wrap32, Int.emod_def]; ring
  exact ⟨_, h⟩

theorem wrap32_congr (z w : Int) (h : (2 ^ 32 : Int) ∣ (z - w)) :
    wrap32 z = wrap32 w := by
  obtain ⟨k, hk⟩ := h
  have hz : z = w + 2 ^ 32 * k := by linarith
  rw [hz, wrap32, wrap32, add_right_comm, Int.add_mul_emod_self_left]

theorem wrap32_eq_self (z : Int) (h1 : -2 ^ 31 ≤ z) (h2 : z < 2 ^ 31) :
    wrap32 z = z := by
  rw [wrap32, Int.emod_eq_of_lt (by norm_num; linarith) (by norm_num; linarith)]
  ring

theorem wrap32_bounds (z : Int) : -2 ^ 31 ≤ wrap32 z ∧ wrap32 z < 2 ^ 31 := by
  have h1 := Int.emod_nonneg (z + 2 ^ 31) (by norm_num : (2 ^ 32 : Int) ≠ 0)
  have h2 := Int.emod_lt_of_pos (z + 2 ^ 31) (by norm_num : (0 : Int) < 2 ^ 32)
  rw [wrap32]
  norm_num at h1 h2 ⊢
  omega

theorem shiftRight_two_eq_div (v : Int) : v >>> (2 : Nat) = v / 4 := by
  have h := Int.shiftRight_eq_div_pow v 2
  norm_num at h
  exact h

theorem surroundingsOf_bounds (a b l r : Int) :
    -2 ^ 31 ≤ surroundingsOf a b l r ∧ surroundingsOf a b l r < 2 ^ 31 := by
  obtain ⟨h1, h2⟩ := wrap32_bounds (a + b + l + r)
  rw [surroundingsOf, shiftRight_two_eq_div]
  norm_num at h1 h2 ⊢
  omega

/-- C4: the next value written for a cell equals exactly
`(a + b + l + r) >> 2` computed on the four gathered neighbour values (each
taken from the current subgrid when interior, from the incoming boundary
buffer otherwise): the expression
`subgrid[y][x] - (subgrid[y][x] - surroundings)` collapses to the pure
four-neighbour average with no damping factor; when the exact sum fits the
32-bit range the result is the floor of the sum divided by four. -/
theorem stencil_no_damping (L : Nat) (subgrid : Nat → Nat → Int)
    (edgeIn : Dir → Nat → Int) (y x : Nat) :
    nextSubgrid L subgrid edgeIn y x =
      surroundingsOf (gatherA subgrid edgeIn y x) (gatherB L subgrid edgeIn y x)
        (gatherL subgrid edgeIn y x) (gatherR L subgrid edgeIn y x) ∧
    (-2 ^ 31 ≤ gatherA subgrid edgeIn y x + gatherB L subgrid edgeIn y x +
        gatherL subgrid edgeIn y x + gatherR L subgrid edgeIn y x →
      gatherA subgrid edgeIn y x + gatherB L subgrid edgeIn y x +
        gatherL subgrid edgeIn y x + gatherR L subgrid edgeIn y x < 2 ^ 31 →
      nextSubgrid L subgrid edgeIn y x =
        (gatherA subgrid edgeIn y x + gatherB L subgrid edgeIn y x +
          gatherL subgrid edgeIn y x + gatherR L subgrid edgeIn y x) / 4) := by
  set a := gatherA subgrid edgeIn y x
  set b := gatherB L subgrid edgeIn y x
  set l := gatherL subgrid edgeIn y x
  set r := gatherR L subgrid edgeIn y x
  set c := subgrid y x
  have hs := surroundingsOf_bounds a b l r
  have hmain : nextSubgrid L subgrid edgeIn y x = surroundingsOf a b l r := by
    show wrap32 (c - wrap32 (c - surroundingsOf a b l r)) = surroundingsOf a b l r
    have hcong : wrap32 (c - wrap32 (c - surroundingsOf a b l r)) =
        wrap32 (surroundingsOf a b l r) := by
      apply wrap32_congr
      have hd := dvd_sub_wrap32 (c - surroundingsOf a b l r)
      obtain ⟨k, hk⟩ := hd
      exact ⟨k, by linarith⟩
    rw [hcong, wrap32_eq_self _ hs.1 hs.2]
  refine ⟨hmain, fun hlo hhi => ?_⟩
  rw [hmain, surroundingsOf, wrap32_eq_self _ hlo hhi, shiftRight_two_eq_div]

/-- Witness for C4: with a 3x3 subgrid whose cell (1,1) reads neighbours
2.0, 4.0, 6.0, 8.0 (16.16 fixed point), the updated value is their floor
average 5.0. -/
theorem stencil_no_damping_witness :
    nextSubgrid 3 (fun y x => ((y + 2 * x : Nat) : Int) * 131072)
      (fun _ _ => 0) 1 1 =
    (gatherA (fun y x => ((y + 2 * x : Nat) : Int) * 131072) (fun _ _ => 0) 1 1 +
      gatherB 3 (fun y x => ((y + 2 * x : Nat) : Int) * 131072) (fun _ _ => 0) 1 1 +
      gatherL (fun y x => ((y + 2 * x : Nat) : Int) * 131072) (fun _ _ => 0) 1 1 +
      gatherR 3 (fun y x => ((y + 2 * x : Nat) : Int) * 131072) (fun _ _ => 0) 1 1) / 4 :=
  (stencil_no_damping 3 (fun y x => ((y + 2 * x : Nat) : Int) * 131072)
    (fun _ _ => 0) 1 1).2 (by decide) (by decide)

/-!
Exchange loop state (heat.c lines 166-218).  A boundary message is one
tag word plus the L temperature samples; the per-step receiver state is the
incoming-edge pointer and pending-early-message buffer per direction plus
the receive counter.
-/

/-- A boundary message: the tag word plus the payload words
(`payload.getD (i - 1) 0` models message word `i` for `1 ≤ i`). -/
structure Msg where
  tag : Nat
  payload : List Int
deriving DecidableEq

/-- Direction field of a received message, from `Dir d = msg[0] >> 1`. -/
def dirOfMsg (m : Msg) : Dir := tagDir m.tag

/-- Receiver-side state of the exchange loop: `edgeIn`, `edgeInBuffer` and
`edgesReceived` of heat.c. -/
@[ext]
structure ExchangeState where
  edgeIn : Dir → Msg
  buffer : Dir → Option Msg
  edgesReceived : Nat

/-- Receive handler (heat.c lines 206-217): pull a message, decode its
direction `d` and phase; a current-phase message becomes the incoming edge
for `d` and bumps the receive count, an early message is stored in
`edgeInBuffer[d]` without bumping the count. -/
def recvStep (t : Nat) (s : ExchangeState) (msg : Msg) : ExchangeState :=
  let d := dirOfMsg msg
  if tagPhase msg.tag = t &&& 1 then
    { s with edgeIn := fun e => if e = d then msg else s.edgeIn e,
             edgesReceived := s.edgesReceived + 1 }
  else
    { s with buffer := fun e => if e = d then some msg else s.buffer e }

/-- The four directions in the order scanned by `for (int i = 0; i < 4; i++)`. -/
def dirList : List Dir := [Dir.N, Dir.S, Dir.E, Dir.W]

/-- Body of the buffered-edge drain (heat.c lines 177-182): a non-empty
slot becomes the incoming edge, is cleared, and bumps the receive count. -/
def drainOne (s : ExchangeState) (d : Dir) : ExchangeState :=
  match s.buffer d with
  | none => s
  | some m =>
    { edgeIn := fun e => if e = d then m else s.edgeIn e,
      buffer := fun e => if e = d then none else s.buffer e,
      edgesReceived := s.edgesReceived + 1 }

/-- The buffered-edge drain loop over all four directions. -/
def drainBuffered (s : ExchangeState) : ExchangeState := dirList.foldl drainOne s

/-- Processing of a sequence of message arrivals by the receive handler. -/
def processEvents (t : Nat) (s : ExchangeState) : List Msg → ExchangeState
  | [] => s
  | m :: ms => processEvents t (recvStep t s m) ms

/-- The receive side of one step's exchange phase: buffered early arrivals
are recognised first, then new arrivals are pulled from the transport. -/
def receivePhase (t : Nat) (s : ExchangeState) (arrivals : List Msg) :
    ExchangeState :=
  processEvents t (drainBuffered s) arrivals

/-- C1: in the exchange loop's receive handler at step `t`
(phase `p = t & 1`), a message whose tag carries direction `d` and phase
`q`: if `q = p` it is stored as the incoming boundary for `d` and the
receive count is incremented (buffers untouched); if `q ≠ p` it is stored
in the pending-early slot for `d` and the count is not incremented
(incoming edges untouched). -/
theorem recv_handler_dispatch (t : Nat) (s : ExchangeState) (msg : Msg) :
    (tagPhase msg.tag = t &&& 1 →
      (recvStep t s msg).edgeIn (dirOfMsg msg) = msg ∧
      (recvStep t s msg).edgesReceived = s.edgesReceived + 1 ∧
      (recvStep t s msg).buffer = s.buffer ∧
      (∀ e, e ≠ dirOfMsg msg → (recvStep t s msg).edgeIn e = s.edgeIn e)) ∧
    (tagPhase msg.tag ≠ t &&& 1 →
      (recvStep t s msg).buffer (dirOfMsg msg) = some msg ∧
      (recvStep t s msg).edgesReceived = s.edgesReceived ∧
      (recvStep t s msg).edgeIn = s.edgeIn ∧
      (∀ e, e ≠ dirOfMsg msg → (recvStep t s msg).buffer e = s.buffer e)) := by
  constructor
  · intro hq
    have hq2 : tagPhase msg.tag = t % 2 := by simpa using hq
    refine ⟨?_, ?_, ?_, fun e he => ?_⟩
    · simp [recvStep, hq2]
    · simp [recvStep, hq2]
    · simp [recvStep, hq2]
    · simp [recvStep, hq2, he]
  · intro hq
    have hq2 : ¬(tagPhase msg.tag = t % 2) := by simpa using hq
    refine ⟨?_, ?_, ?_, fun e he => ?_⟩
    · simp [recvStep, hq2]
    · simp [recvStep, hq2]
    · simp [recvStep, hq2]
    · simp [recvStep, hq2, he]

/-- Witness for C1: a phase-0 message tagged for the west edge received at
step 2 is stored as the west incoming edge with the count bumped, while at
step 3 the same message lands in the pending-early slot with the count
unchanged. -/
theorem recv_handler_dispatch_witness :
    (recvStep 2 ⟨fun _ => ⟨9, []⟩, fun _ => none, 0⟩ ⟨6, [7]⟩).edgeIn Dir.W
      = ⟨6, [7]⟩ ∧
    (recvStep 2 ⟨fun _ => ⟨9, []⟩, fun _ => none, 0⟩ ⟨6, [7]⟩).edgesReceived = 1 ∧
    (recvStep 3 ⟨fun _ => ⟨9, []⟩, fun _ => none, 0⟩ ⟨6, [7]⟩).buffer Dir.W
      = some ⟨6, [7]⟩ ∧
    (recvStep 3 ⟨fun _ => ⟨9, []⟩, fun _ => none, 0⟩ ⟨6, [7]⟩).edgesReceived = 0 := by
  have h2 := (recv_handler_dispatch 2 ⟨fun _ => ⟨9, []⟩, fun _ => none, 0⟩
    ⟨6, [7]⟩).1 (by decide)
  have h3 := (recv_handler_dispatch 3 ⟨fun _ => ⟨9, []⟩, fun _ => none, 0⟩
    ⟨6, [7]⟩).2 (by decide)
  exact ⟨h2.1, h2.2.1, h3.1, h3.2.1⟩

theorem foldl_drainOne_not_mem (ds : List Dir) (s : ExchangeState) (d : Dir)
    (hd : d ∉ ds) :
    (ds.foldl drainOne s).buffer d = s.buffer d ∧
    (ds.foldl drainOne s).edgeIn d = s.edgeIn d := by
  induction ds generalizing s with
  | nil => exact ⟨rfl, rfl⟩
  | cons e rest ih =>
    have hne : d ≠ e := fun h => hd (h ▸ List.mem_cons_self e rest)
    have hrest : d ∉ rest := fun h => hd (List.mem_cons_of_mem e h)
    have h1 : (drainOne s e).buffer d = s.buffer d := by
      rw [drainOne]; cases s.buffer e <;> simp [hne]
    have h2 : (drainOne s e).edgeIn d = s.edgeIn d := by
      rw [drainOne]; cases s.buffer e <;> simp [hne]
    rw [List.foldl_cons]
    obtain ⟨ha, hb⟩ := ih (drainOne s e) hrest
    exact ⟨ha.trans h1, hb.trans h2⟩

theorem foldl_drainOne_mem (ds : List Dir) (s : ExchangeState) (d : Dir)
    (hmem : d ∈ ds) (hnd : ds.Nodup) :
    (∀ m, s.buffer d = some m → (ds.foldl drainOne s).edgeIn d = m) ∧
    (s.buffer d = none → (ds.foldl drainOne s).edgeIn d = s.edgeIn d) ∧
    (ds.foldl drainOne s).buffer d = none := by
  induction ds generalizing s with
  | nil => cases hmem
  | cons e rest ih =>
    rw [List.nodup_cons] at hnd
    rw [List.foldl_cons]
    by_cases hde : d = e
    · subst hde
      have hnot := foldl_drainOne_not_mem rest (drainOne s d) d hnd.1
      refine ⟨fun m hm => ?_, fun hm => ?_, ?_⟩
      · rw [hnot.2, drainOne, hm]; simp
      · rw [hnot.2, drainOne, hm]
      · rw [hnot.1]
        rw [drainOne]; cases hb : s.buffer d <;> simp [hb]
    · have hmem2 : d ∈ rest := by
        cases List.mem_cons.mp hmem with
        | inl h => exact absurd h hde
        | inr h => exact h
      have h1 : (drainOne s e).buffer d = s.buffer d := by
        rw [drainOne]; cases s.buffer e <;> simp [hde]
      have h2 : (drainOne s e).edgeIn d = s.edgeIn d := by
        rw [drainOne]; cases s.buffer e <;> simp [hde]
      obtain ⟨ha, hb, hc⟩ := ih (drainOne s e) hmem2 hnd.2
      exact ⟨fun m hm => ha m (h1.trans hm), fun hm => (hb (h1.trans hm)).trans h2, hc⟩

theorem foldl_drainOne_count (ds : List Dir) (s : ExchangeState)
    (hnd : ds.Nodup) :
    (ds.foldl drainOne s).edgesReceived =
      s.edgesReceived + ds.countP (fun d => (s.buffer d).isSome) := by
  induction ds generalizing s with
  | nil => simp
  | cons e rest ih =>
    rw [List.nodup_cons] at hnd
    rw [List.foldl_cons, List.countP_cons, ih (drainOne s e) hnd.2]
    have hsame : rest.countP (fun d => ((drainOne s e).buffer d).isSome) =
        rest.countP (fun d => (s.buffer d).isSome) := by
      apply List.countP_congr
      intro d hd
      have hne : d ≠ e := fun h => hnd.1 (h ▸ hd)
      have : (drainOne s e).buffer d = s.buffer d := by
        rw [drainOne]; cases s.buffer e <;> simp [hne]
      rw [this]
    rw [hsame]
    cases hb : s.buffer e <;> (rw [drainOne, hb]; simp [hb]; try omega)

/-- C2: at the start of a step's exchange phase every direction with a
non-empty pending-early slot has the slot's contents become the step's
incoming boundary, the slot cleared, and the receive count incremented once
per such direction; directions with an empty slot are untouched; and all of
this happens before any new message is pulled from the transport (the
receive phase processes arrivals starting from the drained state). -/
theorem drain_buffered_first (t : Nat) (s : ExchangeState)
    (arrivals : List Msg) :
    (∀ d m, s.buffer d = some m →
      (drainBuffered s).edgeIn d = m ∧ (drainBuffered s).buffer d = none) ∧
    (∀ d, s.buffer d = none →
      (drainBuffered s).edgeIn d = s.edgeIn d ∧
      (drainBuffered s).buffer d = none) ∧
    (drainBuffered s).edgesReceived =
      s.edgesReceived + dirList.countP (fun d => (s.buffer d).isSome) ∧
    receivePhase t s arrivals = processEvents t (drainBuffered s) arrivals := by
  have hnd : dirList.Nodup := by decide
  have hmem : ∀ d : Dir, d ∈ dirList := fun d => by cases d <;> decide
  refine ⟨fun d m hm => ?_, fun d hm => ?_, ?_, rfl⟩
  · obtain ⟨ha, _, hc⟩ := foldl_drainOne_mem dirList s d (hmem d) hnd
    exact ⟨ha m hm, hc⟩
  · obtain ⟨_, hb, hc⟩ := foldl_drainOne_mem dirList s d (hmem d) hnd
    exact ⟨hb hm, hc⟩
  · exact foldl_drainOne_count dirList s hnd

/-- Witness for C2: from a state whose east slot holds a buffered message
and whose other slots are empty, the drain installs it as the east incoming
edge, clears the slot, counts exactly one receive, and leaves the north
edge untouched. -/
theorem drain_buffered_first_witness :
    (drainBuffered ⟨fun _ => ⟨9, []⟩,
        fun d => if d = Dir.E then some ⟨4, [5]⟩ else none, 0⟩).edgeIn Dir.E
      = ⟨4, [5]⟩ ∧
    (drainBuffered ⟨fun _ => ⟨9, []⟩,
        fun d => if d = Dir.E then some ⟨4, [5]⟩ else none, 0⟩).buffer Dir.E
      = none ∧
    (drainBuffered ⟨fun _ => ⟨9, []⟩,
        fun d => if d = Dir.E then some ⟨4, [5]⟩ else none, 0⟩).edgeIn Dir.N
      = ⟨9, []⟩ ∧
    (drainBuffered ⟨fun _ => ⟨9, []⟩,
        fun d => if d = Dir.E then some ⟨4, [5]⟩ else none, 0⟩).edgesReceived
      = 1 := by
  have h := drain_buffered_first 0
    ⟨fun _ => ⟨9, []⟩, fun d => if d = Dir.E then some ⟨4, [5]⟩ else none, 0⟩ []
  obtain ⟨hsome, hnone, hcount, _⟩ := h
  have he := hsome Dir.E ⟨4, [5]⟩ (by simp)
  have hn := hnone Dir.N (by simp)
  exact ⟨he.1, he.2, hn.1, by rw [hcount]; decide⟩

/-- Effect of the receive handler on the two per-direction cells
(incoming edge, pending-early slot) of the direction a message is tagged
for. -/
def recvFold (t : Nat) (st : Msg × Option Msg) (m : Msg) : Msg × Option Msg :=
  if tagPhase m.tag = t &&& 1 then (m, st.2) else (st.1, some m)

theorem processEvents_proj (t : Nat) (l : List Msg) (s : ExchangeState)
    (d : Dir) :
    ((processEvents t s l).edgeIn d, (processEvents t s l).buffer d) =
      List.foldl (recvFold t) (s.edgeIn d, s.buffer d)
        (l.filter (fun m => dirOfMsg m == d)) := by
  induction l generalizing s with
  | nil => rfl
  | cons m ms ih =>
    rw [processEvents, List.filter_cons]
    by_cases hd : dirOfMsg m = d
    · have hbeq : (dirOfMsg m == d) = true := by simp [hd]
      rw [hbeq]
      simp only [ite_true]
      rw [List.foldl_cons, ih (recvStep t s m)]
      congr 1
      rw [recvStep, recvFold]
      by_cases hp : tagPhase m.tag = t % 2
      · simp [hp, hd]
      · simp [hp, hd]
    · have hbeq : (dirOfMsg m == d) = false := by simp [hd]
      rw [hbeq]
      simp only [Bool.false_eq_true, ite_false]
      rw [ih (recvStep t s m)]
      congr 1
      rw [recvStep]
      have hne : d ≠ dirOfMsg m := fun h => hd h.symm
      by_cases hp : tagPhase m.tag = t % 2
      · simp [hp, hne]
      · simp [hp, hne]

theorem processEvents_count (t : Nat) (l : List Msg) (s : ExchangeState) :
    (processEvents t s l).edgesReceived =
      s.edgesReceived + l.countP (fun m => tagPhase m.tag == t &&& 1) := by
  induction l generalizing s with
  | nil => simp [processEvents]
  | cons m ms ih =>
    rw [processEvents, List.countP_cons, ih (recvStep t s m), recvStep]
    by_cases hp : tagPhase m.tag = t % 2
    · simp [hp]; omega
    · simp [hp]

theorem countP_decompose_dirs (l : List Msg) (p : Msg → Bool) :
    l.countP p =
      (dirList.map
        (fun d => (l.filter (fun m => dirOfMsg m == d)).countP p)).sum := by
  induction l with
  | nil => simp
  | cons m ms ih =>
    rw [List.countP_cons]
    cases hdir : dirOfMsg m <;>
      simp [dirList, List.filter_cons, hdir, List.countP_cons, ih, dirList] <;>
      omega

/-- C6: processing two arrival orders of the same tagged boundary messages
that agree on every per-direction subsequence yields identical exchange
states (the same incoming-boundary assignment, pending slots and receive
count), and hence the identical next subgrid computed from the received
edges: the outcome depends only on each message's tag, not on arrival
order. -/
theorem exchange_reorder_deterministic (t : Nat) (s : ExchangeState)
    (l1 l2 : List Msg)
    (h : ∀ d : Dir, l1.filter (fun m => dirOfMsg m == d) =
      l2.filter (fun m => dirOfMsg m == d)) :
    processEvents t s l1 = processEvents t s l2 ∧
    (∀ (L : Nat) (g : Nat → Nat → Int),
      nextSubgrid L g
        (fun d i => ((processEvents t s l1).edgeIn d).payload.getD (i - 1) 0) =
      nextSubgrid L g
        (fun d i => ((processEvents t s l2).edgeIn d).payload.getD (i - 1) 0)) := by
  have hstate : processEvents t s l1 = processEvents t s l2 := by
    apply ExchangeState.ext
    · funext d
      have h1 := processEvents_proj t l1 s d
      have h2 := processEvents_proj t l2 s d
      rw [h d] at h1
      have := h1.trans h2.symm
      exact (Prod.mk.injEq _ _ _ _).mp this |>.1
    · funext d
      have h1 := processEvents_proj t l1 s d
      have h2 := processEvents_proj t l2 s d
      rw [h d] at h1
      have := h1.trans h2.symm
      exact (Prod.mk.injEq _ _ _ _).mp this |>.2
    · rw [processEvents_count t l1 s, processEvents_count t l2 s]
      rw [countP_decompose_dirs l1, countP_decompose_dirs l2]
      congr 1
      apply congrArg List.sum
      apply List.map_congr_left
      intro d _
      rw [h d]
  exact ⟨hstate, fun L g => by rw [hstate]⟩

/-- Witness for C6: two interleavings of a north-tagged and an east-tagged
message (each channel a singleton, so per-channel order is trivially
preserved) produce the same exchange state. -/
theorem exchange_reorder_deterministic_witness :
    processEvents 0 ⟨fun _ => ⟨9, []⟩, fun _ => none, 0⟩ [⟨0, [1]⟩, ⟨4, [2]⟩] =
    processEvents 0 ⟨fun _ => ⟨9, []⟩, fun _ => none, 0⟩ [⟨4, [2]⟩, ⟨0, [1]⟩] :=
  (exchange_reorder_deterministic 0 ⟨fun _ => ⟨9, []⟩, fun _ => none, 0⟩
    [⟨0, [1]⟩, ⟨4, [2]⟩] [⟨4, [2]⟩, ⟨0, [1]⟩]
    (fun d => by cases d <;> rfl)).1

/-!
Send handler (heat.c lines 196-203).  The stencil loop has already filled
`edgeOut[d][1..L]` with the new boundary values; the send handler writes
the tag word `(opposite(d) << 1) | (t & 1)` into slot 0 immediately before
transmitting the buffer.
-/

/-- The message transmitted for direction `d` at step `t`: the tag word
written by the send handler followed by the `L` boundary samples that the
update loop left in `edgeOut[d][1..L]`. -/
def sentMessage (L : Nat) (subgrid : Nat → Nat → Int)
    (edgeIn : Dir → Nat → Int) (d : Dir) (t : Nat) : Msg :=
  { tag := encodeTag d t
    payload := (List.range L).map
      (fun j => edgeOutAfter L subgrid edgeIn d (j + 1)) }

/-- C7: every boundary message sent in direction `d` at step `t` carries as
its first word exactly `(opposite(d) << 1) | (t & 1)`, followed by the `L`
boundary temperature samples (sample `j` being the updated value in slot
`j + 1` of the outgoing edge buffer for `d`). -/
theorem sent_message_format (L : Nat) (subgrid : Nat → Nat → Int)
    (edgeIn : Dir → Nat → Int) (d : Dir) (t : Nat) :
    (sentMessage L subgrid edgeIn d t).tag =
      (dirToNat (opposite d) <<< 1) ||| (t &&& 1) ∧
    (sentMessage L subgrid edgeIn d t).payload.length = L ∧
    (∀ j, j < L → (sentMessage L subgrid edgeIn d t).payload.getD j 0 =
      edgeOutAfter L subgrid edgeIn d (j + 1)) := by
  refine ⟨rfl, by simp [sentMessage], fun j hj => ?_⟩
  have hlen : j < ((List.range L).map
      (fun j => edgeOutAfter L subgrid edgeIn d (j + 1))).length := by
    simpa using hj
  rw [sentMessage]
  rw [List.getD_eq_getElem _ _ hlen]
  simp

/-- Witness for C7: the message sent north at step 5 from a 2x2 subgrid of
zeros with zero edges is tagged `(S << 1) | 1 = 3`, and its first sample is
the updated value of cell (0, 0). -/
theorem sent_message_format_witness :
    (sentMessage 2 (fun _ _ => 0) (fun _ _ => 0) Dir.N 5).tag = 3 ∧
    (sentMessage 2 (fun _ _ => 0) (fun _ _ => 0) Dir.N 5).payload.length = 2 ∧
    (sentMessage 2 (fun _ _ => 0) (fun _ _ => 0) Dir.N 5).payload.getD 0 0 =
      edgeOutAfter 2 (fun _ _ => 0) (fun _ _ => 0) Dir.N 1 := by
  obtain ⟨h1, h2, h3⟩ := sent_message_format 2 (fun _ _ => 0) (fun _ _ => 0)
    Dir.N 5
  exact ⟨by rw [h1]; decide, h2, h3 0 (by decide)⟩

/-!
Result emission (heat.c lines 226-235).  `L = (1 << TinselLogWordsPerMsg) - 1`
is the subgrid edge length; the emission loop sends, for every cell in
row-major order, one word packing the global coordinates and the truncated
integer part of the temperature.
-/

/-- Subgrid edge length, from
`const uint32_t L = (1 << TinselLogWordsPerMsg) - 1`. -/
def subLen (logWords : Nat) : Nat := (1 <<< logWords) - 1

/-- Global coordinate offset, from
`int x = (xPos << TinselLogWordsPerMsg) - xPos` (and likewise for y). -/
def globalOffset (logWords p : Nat) : Nat := (p <<< logWords) - p

/-- One emitted result word for subgrid cell (i, j), from
`uint32_t coords = ((y+i) << 12) | (x+j)` and
`uint32_t temp = (subgrid[i][j] >> 16) & 0xff` and
`tinselHostPut((coords << 8) | temp)`. -/
def emitWord (logWords xPos yPos : Nat) (g : Nat → Nat → Int)
    (i j : Nat) : Nat :=
  let x := globalOffset logWords xPos
  let y := globalOffset logWords yPos
  let coords := ((y + i) <<< 12) ||| (x + j)
  let temp := (Int.land (g i j >>> (16 : Nat)) 255).toNat
  (coords <<< 8) ||| temp

/-- The words emitted by the final double loop, in emission order. -/
def emitResults (logWords xPos yPos : Nat) (g : Nat → Nat → Int) : List Nat :=
  (List.range (subLen logWords)).flatMap
    (fun i => (List.range (subLen logWords)).map
      (fun j => emitWord logWords xPos yPos g i j))

theorem globalOffset_eq_mul (w p : Nat) :
    globalOffset w p = p * subLen w := by
  rw [globalOffset, subLen, Nat.shiftLeft_eq, Nat.shiftLeft_eq, one_mul]
  have h1 : 1 ≤ 2 ^ w := Nat.one_le_two_pow
  calc p * 2 ^ w - p = p * ((2 ^ w - 1) + 1) - p := by rw [Nat.sub_add_cancel h1]
    _ = p * (2 ^ w - 1) := by rw [Nat.mul_add, Nat.mul_one, Nat.add_sub_cancel]

/-- C8: after the final step, one word is emitted per cell of the final
subgrid, in row-major order, each equal to
`((global_row << 12) | global_col) << 8 | temp` where the global
coordinates are `yPos*L + i` and `xPos*L + j` and `temp` is the integer
part of the cell's 16.16 fixed-point temperature truncated to 8 bits. -/
theorem emit_results_format (w xPos yPos : Nat) (g : Nat → Nat → Int) :
    emitResults w xPos yPos g =
      (List.range (subLen w)).flatMap (fun i => (List.range (subLen w)).map
        (fun j =>
          ((((yPos * subLen w + i) <<< 12) ||| (xPos * subLen w + j)) <<< 8) |||
            (Int.land (g i j >>> (16 : Nat)) 255).toNat)) ∧
    (emitResults w xPos yPos g).length = subLen w * subLen w := by
  constructor
  · apply List.flatMap_congr
    intro i _
    apply List.map_congr_left
    intro j _
    rw [emitWord]
    simp only [globalOffset_eq_mul]
  · rw [emitResults, List.length_flatMap]
    simp only [Function.comp_def, List.length_map, List.length_range]
    rw [List.map_const', List.sum_replicate, smul_eq_mul, List.length_range]

/-- C10: the coordinate offset `(xPos << TinselLogWordsPerMsg) - xPos`
computed for result emission equals exactly `xPos * L` with
`L = (1 << TinselLogWordsPerMsg) - 1` (likewise for `yPos`), so cell
`(i, j)` is emitted at global coordinates `(yPos*L + i, xPos*L + j)`; the
coordinate ranges of distinct nodes are pairwise disjoint and together
tile the global grid. -/
theorem global_offset_tiling (w : Nat) :
    (∀ p, globalOffset w p = p * subLen w) ∧
    (∀ p1 j1 p2 j2, j1 < subLen w → j2 < subLen w →
      p1 * subLen w + j1 = p2 * subLen w + j2 → p1 = p2 ∧ j1 = j2) ∧
    (∀ n g, g < n * subLen w →
      ∃ p j, p < n ∧ j < subLen w ∧ g = p * subLen w + j) := by
  refine ⟨globalOffset_eq_mul w, fun p1 j1 p2 j2 hj1 hj2 heq => ?_, fun n g hg => ?_⟩
  · have hL : 0 < subLen w := Nat.zero_lt_of_lt hj1
    have h1 : (p1 * subLen w + j1) / subLen w = p1 := by
      rw [Nat.mul_comm, Nat.mul_add_div hL, Nat.div_eq_of_lt hj1, Nat.add_zero]
    have h2 : (p2 * subLen w + j2) / subLen w = p2 := by
      rw [Nat.mul_comm, Nat.mul_add_div hL, Nat.div_eq_of_lt hj2, Nat.add_zero]
    have hp : p1 = p2 := by rw [← h1, ← h2, heq]
    refine ⟨hp, ?_⟩
    have := heq
    rw [hp] at this
    exact Nat.add_left_cancel this
  · have hL : 0 < subLen w := by
      rcases Nat.eq_zero_or_pos (subLen w) with h | h
      · rw [h, Nat.mul_zero] at hg; cases Nat.not_lt_zero _ hg
      · exact h
    refine ⟨g / subLen w, g % subLen w, ?_, Nat.mod_lt _ hL, ?_⟩
    · exact (Nat.div_lt_iff_lt_mul hL).mpr hg
    · rw [Nat.mul_comm, Nat.div_add_mod]

/-- Witness for C10: with two message words of log-size 2 (`L = 3`), the
offset of column position 5 is 15 = 5 * 3, and global column 7 on a
3-node-wide mesh decomposes uniquely as node 2, offset 1. -/
theorem global_offset_tiling_witness :
    globalOffset 2 5 = 5 * subLen 2 ∧
    (7 : Nat) < 3 * subLen 2 ∧
    (∃ p j, p < 3 ∧ j < subLen 2 ∧ 7 = p * subLen 2 + j) :=
  ⟨(global_offset_tiling 2).1 5, by decide,
    (global_offset_tiling 2).2.2 3 7 (by decide)⟩

/-!
Bounded-skew exchange protocol.  To settle the reachability invariant on
`edgeInBuffer` (heat.c lines 90-94, 176-182, 196-217) the receive side of
the protocol is modelled as an explicit step relation: each present
direction carries the neighbour's step counter and send flag, the FIFO
channel of in-flight edges (each identified by the step at which it was
sent; its wire tag carries that step's parity), and the receiver's
per-direction view (`got`: this step's edge is known; `buf`: the
`edgeInBuffer[d]` pending-early slot).  A neighbour sends exactly one
tagged edge per step and may advance only while staying at most one step
ahead of the receiver - the bounded-skew precondition of the protocol.
-/

/-- Per-direction protocol state. -/
structure DirState where
  nstep : Nat
  nsent : Bool
  queue : List Nat
  got : Bool
  buf : Option Nat
deriving DecidableEq

/-- Joint state: the receiver's step counter plus per-direction state. -/
structure Sys where
  t : Nat
  dirs : Dir → DirState

/-- Pointwise update of the per-direction state. -/
def updDir (f : Dir → DirState) (d : Dir) (ds : DirState) : Dir → DirState :=
  fun e => if e = d then ds else f e

/-- Initial per-direction state: step 0, nothing sent, channel empty, no
edge received, pending-early slot empty (heat.c lines 90-94 clear
`edgeInBuffer`). -/
def initDir : DirState :=
  { nstep := 0, nsent := false, queue := [], got := false, buf := none }

/-- Initial joint state. -/
def initSys : Sys := { t := 0, dirs := fun _ => initDir }

/-- Neighbour-side effect of sending the current step's edge: the tagged
message joins the channel and the send flag is set. -/
def sendUpd (ds : DirState) : DirState :=
  { ds with nsent := true, queue := ds.queue ++ [ds.nstep] }

/-- Neighbour-side effect of moving on to its next simulation step. -/
def advanceUpd (ds : DirState) : DirState :=
  { ds with nstep := ds.nstep + 1, nsent := false }

/-- Receiver-side effect of the matching-phase branch of the receive
handler (`edgeIn[d] = msg; edgesReceived++`). -/
def recvCurrentUpd (ds : DirState) (rest : List Nat) : DirState :=
  { ds with queue := rest, got := true }

/-- Receiver-side effect of the early-message branch of the receive
handler (`edgeInBuffer[d] = msg`). -/
def recvEarlyUpd (ds : DirState) (m : Nat) (rest : List Nat) : DirState :=
  { ds with queue := rest, buf := some m }

/-- Per-direction effect of the step advance: the buffered-edge drain of
heat.c lines 176-182 (a buffered edge becomes the new step's received
edge and the slot is cleared). -/
def drainUpd (ds : DirState) : DirState :=
  { ds with got := ds.buf.isSome, buf := none }

/-- One transition of the exchange protocol under the bounded-skew
precondition; `present d` says the node has a neighbour in direction `d`.
The two receive constructors are the two branches of the receive handler
(heat.c lines 206-217); the step advance performs the buffered-edge drain
(heat.c lines 176-182) for every direction. -/
inductive Step (present : Dir → Bool) : Sys → Sys → Prop
  | send (s : Sys) (d : Dir) (hp : present d = true)
      (hs : (s.dirs d).nsent = false) :
      Step present s { s with dirs := updDir s.dirs d (sendUpd (s.dirs d)) }
  | advanceNeighbour (s : Sys) (d : Dir) (hp : present d = true)
      (hs : (s.dirs d).nsent = true) (hskew : (s.dirs d).nstep ≤ s.t) :
      Step present s { s with dirs := updDir s.dirs d (advanceUpd (s.dirs d)) }
  | recvCurrent (s : Sys) (d : Dir) (m : Nat) (rest : List Nat)
      (hp : present d = true) (hq : (s.dirs d).queue = m :: rest)
      (hphase : m % 2 = s.t % 2) :
      Step present s
        { s with dirs := updDir s.dirs d (recvCurrentUpd (s.dirs d) rest) }
  | recvEarly (s : Sys) (d : Dir) (m : Nat) (rest : List Nat)
      (hp : present d = true) (hq : (s.dirs d).queue = m :: rest)
      (hphase : m % 2 ≠ s.t % 2) :
      Step present s
        { s with dirs := updDir s.dirs d (recvEarlyUpd (s.dirs d) m rest) }
  | advanceStep (s : Sys)
      (hall : ∀ d, present d = true → (s.dirs d).got = true) :
      Step present s { t := s.t + 1, dirs := fun d => drainUpd (s.dirs d) }

/-- States of the protocol reachable from the initial state. -/
def Reachable (present : Dir → Bool) (s : Sys) : Prop :=
  Relation.ReflTransGen (Step present) initSys s

/-- Number of edges the neighbour behind a direction has ever sent. -/
def sentUpTo (ds : DirState) : Nat :=
  ds.nstep + (if ds.nsent then 1 else 0)

/-- Per-direction protocol invariant at receiver step `t`: some count `c`
of messages has been consumed so far, the channel holds exactly the sends
`c, c+1, ...` in order, consumption accounts exactly for the receiver's
progress, a buffered early message is the very next step's edge (and the
current step's edge is already in), and the neighbour is at most one step
ahead. -/
def DirInv (t : Nat) (ds : DirState) : Prop :=
  ∃ c, ds.queue = List.range' c ds.queue.length ∧
    c + ds.queue.length = sentUpTo ds ∧
    c = t + (if ds.got then 1 else 0) + (if ds.buf.isSome then 1 else 0) ∧
    (∀ m, ds.buf = some m → m = t + 1 ∧ ds.got = true) ∧
    ds.nstep ≤ t + 1

/-- Joint invariant: present directions satisfy the per-direction
invariant; absent directions stay in their initial state. -/
def SysInv (present : Dir → Bool) (s : Sys) : Prop :=
  ∀ d, (present d = true → DirInv s.t (s.dirs d)) ∧
       (present d = false → s.dirs d = initDir)

theorem dirInv_init : DirInv 0 initDir := by
  refine ⟨0, rfl, rfl, rfl, fun m h => ?_, by decide⟩
  cases h

theorem sysInv_init (present : Dir → Bool) : SysInv present initSys :=
  fun _ => ⟨fun _ => dirInv_init, fun _ => rfl⟩

theorem updDir_same (f : Dir → DirState) (d : Dir) (ds : DirState) :
    updDir f d ds d = ds := by simp [updDir]

theorem updDir_other (f : Dir → DirState) (d e : Dir) (ds : DirState)
    (h : e ≠ d) : updDir f d ds e = f e := by simp [updDir, h]

theorem dirInv_sendUpd (t : Nat) (ds : DirState) (hs : ds.nsent = false)
    (h : DirInv t ds) : DirInv t (sendUpd ds) := by
  obtain ⟨c, h1, h2, h3, h4, h5⟩ := h
  simp only [sentUpTo, hs, Bool.false_eq_true, if_false, Nat.add_zero] at h2
  refine ⟨c, ?_, ?_, ?_, ?_, ?_⟩
  · show ds.queue ++ [ds.nstep] =
      List.range' c (ds.queue ++ [ds.nstep]).length
    have hlen : (ds.queue ++ [ds.nstep]).length = ds.queue.length + 1 := by
      simp
    rw [hlen, List.range'_1_concat, ← h1, h2]
  · show c + (ds.queue ++ [ds.nstep]).length = sentUpTo (sendUpd ds)
    simp [sendUpd, sentUpTo]
    omega
  · simpa [sendUpd] using h3
  · intro m hm
    exact h4 m (by simpa [sendUpd] using hm)
  · simpa [sendUpd] using h5

theorem dirInv_advanceUpd (t : Nat) (ds : DirState) (hs : ds.nsent = true)
    (hskew : ds.nstep ≤ t) (h : DirInv t ds) : DirInv t (advanceUpd ds) := by
  obtain ⟨c, h1, h2, h3, h4, h5⟩ := h
  simp only [sentUpTo, hs, if_true] at h2
  refine ⟨c, ?_, ?_, ?_, ?_, ?_⟩
  · simpa [advanceUpd] using h1
  · simp [advanceUpd, sentUpTo]
    omega
  · simpa [advanceUpd] using h3
  · intro m hm
    exact h4 m (by simpa [advanceUpd] using hm)
  · simp [advanceUpd]
    omega

theorem dirInv_recvCurrentUpd (t : Nat) (ds : DirState) (m : Nat)
    (rest : List Nat) (hq : ds.queue = m :: rest) (hphase : m % 2 = t % 2)
    (h : DirInv t ds) :
    DirInv t (recvCurrentUpd ds rest) ∧ ds.got = false ∧ ds.buf = none := by
  obtain ⟨c, h1, h2, h3, h4, h5⟩ := h
  rw [hq] at h1 h2
  have hlen : (m :: rest).length = rest.length + 1 := rfl
  rw [hlen, List.range'_succ] at h1
  injection h1 with hm hrest
  subst hm
  have hsent : sentUpTo ds ≤ ds.nstep + 1 := by
    rw [sentUpTo]; cases ds.nsent <;> simp
  rw [hlen] at h2
  have hgot : ds.got = false ∧ ds.buf = none := by
    cases hg : ds.got with
    | true =>
      cases hbuf : ds.buf with
      | none => exfalso; rw [hg, hbuf] at h3; simp at h3; omega
      | some m0 => exfalso; rw [hg, hbuf] at h3; simp at h3; omega
    | false =>
      cases hbuf : ds.buf with
      | none => exact ⟨rfl, rfl⟩
      | some m0 => exact absurd ((h4 m0 hbuf).2) (by rw [hg]; simp)
  obtain ⟨hg, hbuf⟩ := hgot
  rw [hg, hbuf] at h3
  simp at h3
  refine ⟨⟨m + 1, ?_, ?_, ?_, ?_, ?_⟩, hg, hbuf⟩
  · simpa [recvCurrentUpd] using hrest
  · show m + 1 + rest.length = sentUpTo (recvCurrentUpd ds rest)
    have : sentUpTo (recvCurrentUpd ds rest) = sentUpTo ds := by
      simp [recvCurrentUpd, sentUpTo]
    rw [this]
    omega
  · simp [recvCurrentUpd, hbuf]
    omega
  · intro m0 hm0
    simp [recvCurrentUpd, hbuf] at hm0
  · simpa [recvCurrentUpd] using h5

theorem dirInv_recvEarlyUpd (t : Nat) (ds : DirState) (m : Nat)
    (rest : List Nat) (hq : ds.queue = m :: rest) (hphase : m % 2 ≠ t % 2)
    (h : DirInv t ds) :
    DirInv t (recvEarlyUpd ds m rest) ∧ ds.buf = none ∧ ds.got = true := by
  obtain ⟨c, h1, h2, h3, h4, h5⟩ := h
  rw [hq] at h1 h2
  have hlen : (m :: rest).length = rest.length + 1 := rfl
  rw [hlen, List.range'_succ] at h1
  injection h1 with hm hrest
  subst hm
  have hsent : sentUpTo ds ≤ ds.nstep + 1 := by
    rw [sentUpTo]; cases ds.nsent <;> simp
  rw [hlen] at h2
  have hgot : ds.got = true ∧ ds.buf = none := by
    cases hg : ds.got with
    | true =>
      cases hbuf : ds.buf with
      | none => exact ⟨rfl, rfl⟩
      | some m0 => exfalso; rw [hg, hbuf] at h3; simp at h3; omega
    | false =>
      cases hbuf : ds.buf with
      | none => exfalso; rw [hg, hbuf] at h3; simp at h3; omega
      | some m0 => exact absurd ((h4 m0 hbuf).2) (by rw [hg]; simp)
  obtain ⟨hg, hbuf⟩ := hgot
  rw [hg, hbuf] at h3
  simp at h3
  refine ⟨⟨m + 1, ?_, ?_, ?_, ?_, ?_⟩, hbuf, hg⟩
  · simpa [recvEarlyUpd] using hrest
  · show m + 1 + rest.length = sentUpTo (recvEarlyUpd ds m rest)
    have : sentUpTo (recvEarlyUpd ds m rest) = sentUpTo ds := by
      simp [recvEarlyUpd, sentUpTo]
    rw [this]
    omega
  · simp [recvEarlyUpd, hg]
    omega
  · intro m0 hm0
    simp only [recvEarlyUpd] at hm0
    have : m = m0 := by injection hm0
    subst this
    constructor
    · omega
    · simp [recvEarlyUpd, hg]
  · simpa [recvEarlyUpd] using h5

theorem dirInv_drainUpd (t : Nat) (ds : DirState) (hg : ds.got = true)
    (h : DirInv t ds) : DirInv (t + 1) (drainUpd ds) := by
  obtain ⟨c, h1, h2, h3, h4, h5⟩ := h
  refine ⟨c, ?_, ?_, ?_, ?_, ?_⟩
  · simpa [drainUpd] using h1
  · simpa [drainUpd, sentUpTo] using h2
  · rw [hg] at h3
    cases hbuf : ds.buf <;> rw [hbuf] at h3 <;> simp [drainUpd, hbuf] at h3 ⊢ <;>
      omega
  · intro m hm
    simp [drainUpd] at hm
  · simp [drainUpd]
    omega

theorem sysInv_step (present : Dir → Bool) (s s2 : Sys)
    (hinv : SysInv present s) (hstep : Step present s s2) :
    SysInv present s2 := by
  cases hstep with
  | send d hp hs =>
    intro e
    by_cases hed : e = d
    · subst hed
      refine ⟨fun hpe => ?_, fun hpe => ?_⟩
      · show DirInv s.t (updDir s.dirs e (sendUpd (s.dirs e)) e)
        rw [updDir_same]
        exact dirInv_sendUpd s.t (s.dirs e) hs ((hinv e).1 hpe)
      · rw [hp] at hpe; cases hpe
    · refine ⟨fun hpe => ?_, fun hpe => ?_⟩
      · show DirInv s.t (updDir s.dirs d (sendUpd (s.dirs d)) e)
        rw [updDir_other _ _ _ _ hed]
        exact (hinv e).1 hpe
      · show updDir s.dirs d (sendUpd (s.dirs d)) e = initDir
        rw [updDir_other _ _ _ _ hed]
        exact (hinv e).2 hpe
  | advanceNeighbour d hp hs hskew =>
    intro e
    by_cases hed : e = d
    · subst hed
      refine ⟨fun hpe => ?_, fun hpe => ?_⟩
      · show DirInv s.t (updDir s.dirs e (advanceUpd (s.dirs e)) e)
        rw [updDir_same]
        exact dirInv_advanceUpd s.t (s.dirs e) hs hskew ((hinv e).1 hpe)
      · rw [hp] at hpe; cases hpe
    · refine ⟨fun hpe => ?_, fun hpe => ?_⟩
      · show DirInv s.t (updDir s.dirs d (advanceUpd (s.dirs d)) e)
        rw [updDir_other _ _ _ _ hed]
        exact (hinv e).1 hpe
      · show updDir s.dirs d (advanceUpd (s.dirs d)) e = initDir
        rw [updDir_other _ _ _ _ hed]
        exact (hinv e).2 hpe
  | recvCurrent d m rest hp hq hphase =>
    intro e
    by_cases hed : e = d
    · subst hed
      refine ⟨fun hpe => ?_, fun hpe => ?_⟩
      · show DirInv s.t (updDir s.dirs e (recvCurrentUpd (s.dirs e) rest) e)
        rw [updDir_same]
        exact (dirInv_recvCurrentUpd s.t (s.dirs e) m rest hq hphase
          ((hinv e).1 hpe)).1
      · rw [hp] at hpe; cases hpe
    · refine ⟨fun hpe => ?_, fun hpe => ?_⟩
      · show DirInv s.t (updDir s.dirs d (recvCurrentUpd (s.dirs d) rest) e)
        rw [updDir_other _ _ _ _ hed]
        exact (hinv e).1 hpe
      · show updDir s.dirs d (recvCurrentUpd (s.dirs d) rest) e = initDir
        rw [updDir_other _ _ _ _ hed]
        exact (hinv e).2 hpe
  | recvEarly d m rest hp hq hphase =>
    intro e
    by_cases hed : e = d
    · subst hed
      refine ⟨fun hpe => ?_, fun hpe => ?_⟩
      · show DirInv s.t (updDir s.dirs e (recvEarlyUpd (s.dirs e) m rest) e)
        rw [updDir_same]
        exact (dirInv_recvEarlyUpd s.t (s.dirs e) m rest hq hphase
          ((hinv e).1 hpe)).1
      · rw [hp] at hpe; cases hpe
    · refine ⟨fun hpe => ?_, fun hpe => ?_⟩
      · show DirInv s.t (updDir s.dirs d (recvEarlyUpd (s.dirs d) m rest) e)
        rw [updDir_other _ _ _ _ hed]
        exact (hinv e).1 hpe
      · show updDir s.dirs d (recvEarlyUpd (s.dirs d) m rest) e = initDir
        rw [updDir_other _ _ _ _ hed]
        exact (hinv e).2 hpe
  | advanceStep hall =>
    intro e
    refine ⟨fun hpe => ?_, fun hpe => ?_⟩
    · show DirInv (s.t + 1) (drainUpd (s.dirs e))
      exact dirInv_drainUpd s.t (s.dirs e) (hall e hpe) ((hinv e).1 hpe)
    · show drainUpd (s.dirs e) = initDir
      rw [(hinv e).2 hpe]
      rfl

theorem sysInv_reachable (present : Dir → Bool) (s : Sys)
    (h : Reachable present s) : SysInv present s := by
  induction h with
  | refl => exact sysInv_init present
  | tail hsteps hstep ih => exact sysInv_step present _ _ ih hstep

/-- C3: in every reachable state of the exchange protocol's step relation
under the bounded-skew precondition (directly connected neighbours differ
by at most one simulation step), each pending-early slot holds at most the
single next-step edge and is never overwritten while occupied: a non-empty
`PendingEarlyMessage[d]` holds exactly the edge for step `t + 1`, and any
protocol step taken while the slot is occupied either leaves the occupant
unchanged or consumes it at the step advance. -/
theorem pending_early_never_overwritten (present : Dir → Bool) (s s2 : Sys)
    (d : Dir) (m m2 : Nat) (hr : Reachable present s)
    (hstep : Step present s s2) (hb : (s.dirs d).buf = some m)
    (hb2 : (s2.dirs d).buf = some m2) :
    m2 = m ∧ m = s.t + 1 := by
  have hinv := sysInv_reachable present s hr
  have hpd : present d = true := by
    cases hpd : present d with
    | true => rfl
    | false => rw [(hinv d).2 hpd] at hb; cases hb
  have hdi := (hinv d).1 hpd
  obtain ⟨c, hq1, hq2, hq3, hq4, hq5⟩ := hdi
  have hmt : m = s.t + 1 := (hq4 m hb).1
  refine ⟨?_, hmt⟩
  cases hstep with
  | send d0 hp hs =>
    by_cases hed : d = d0
    · subst hed
      simp only [updDir_same, sendUpd] at hb2
      rw [hb] at hb2
      exact (Option.some.inj hb2).symm
    · rw [show ({ s with dirs := updDir s.dirs d0 (sendUpd (s.dirs d0)) } :
          Sys).dirs d = s.dirs d from updDir_other _ _ _ _ hed] at hb2
      rw [hb] at hb2
      exact (Option.some.inj hb2).symm
  | advanceNeighbour d0 hp hs hskew =>
    by_cases hed : d = d0
    · subst hed
      simp only [updDir_same, advanceUpd] at hb2
      rw [hb] at hb2
      exact (Option.some.inj hb2).symm
    · rw [show ({ s with dirs := updDir s.dirs d0 (advanceUpd (s.dirs d0)) } :
          Sys).dirs d = s.dirs d from updDir_other _ _ _ _ hed] at hb2
      rw [hb] at hb2
      exact (Option.some.inj hb2).symm
  | recvCurrent d0 m0 rest hp hq hphase =>
    by_cases hed : d = d0
    · subst hed
      simp only [updDir_same, recvCurrentUpd] at hb2
      rw [hb] at hb2
      exact (Option.some.inj hb2).symm
    · rw [show ({ s with
          dirs := updDir s.dirs d0 (recvCurrentUpd (s.dirs d0) rest) } :
          Sys).dirs d = s.dirs d from updDir_other _ _ _ _ hed] at hb2
      rw [hb] at hb2
      exact (Option.some.inj hb2).symm
  | recvEarly d0 m0 rest hp hq hphase =>
    by_cases hed : d = d0
    · subst hed
      have hre := dirInv_recvEarlyUpd s.t (s.dirs d) m0 rest hq hphase
        ⟨c, hq1, hq2, hq3, hq4, hq5⟩
      rw [hre.2.1] at hb
      cases hb
    · rw [show ({ s with
          dirs := updDir s.dirs d0 (recvEarlyUpd (s.dirs d0) m0 rest) } :
          Sys).dirs d = s.dirs d from updDir_other _ _ _ _ hed] at hb2
      rw [hb] at hb2
      exact (Option.some.inj hb2).symm
  | advanceStep hall =>
    simp only [drainUpd] at hb2
    cases hb2

/-- Demo configuration for the protocol: neighbours to the east and west
(a node in the interior of a one-dimensional chain). -/
def demoPresent : Dir → Bool
  | Dir.E => true
  | Dir.W => true
  | _ => false

/-- Demo trace: the east neighbour sends its step-0 edge. -/
def demoSys1 : Sys :=
  { initSys with dirs := updDir initSys.dirs Dir.E (sendUpd (initSys.dirs Dir.E)) }

/-- Demo trace: the receiver consumes the east step-0 edge. -/
def demoSys2 : Sys :=
  { demoSys1 with
    dirs := updDir demoSys1.dirs Dir.E (recvCurrentUpd (demoSys1.dirs Dir.E) []) }

/-- Demo trace: the east neighbour advances to step 1. -/
def demoSys3 : Sys :=
  { demoSys2 with
    dirs := updDir demoSys2.dirs Dir.E (advanceUpd (demoSys2.dirs Dir.E)) }

/-- Demo trace: the east neighbour, one step ahead, sends its step-1 edge. -/
def demoSys4 : Sys :=
  { demoSys3 with
    dirs := updDir demoSys3.dirs Dir.E (sendUpd (demoSys3.dirs Dir.E)) }

/-- Demo trace: the receiver buffers the early east step-1 edge. -/
def demoSys5 : Sys :=
  { demoSys4 with
    dirs := updDir demoSys4.dirs Dir.E (recvEarlyUpd (demoSys4.dirs Dir.E) 1 []) }

/-- Demo trace: the west neighbour sends its step-0 edge. -/
def demoSys6 : Sys :=
  { demoSys5 with
    dirs := updDir demoSys5.dirs Dir.W (sendUpd (demoSys5.dirs Dir.W)) }

/-- Demo trace: the receiver consumes the west step-0 edge while the east
pending-early slot is occupied. -/
def demoSys7 : Sys :=
  { demoSys6 with
    dirs := updDir demoSys6.dirs Dir.W (recvCurrentUpd (demoSys6.dirs Dir.W) []) }

theorem demo_reachable : Reachable demoPresent demoSys6 :=
  Relation.ReflTransGen.tail
    (Relation.ReflTransGen.tail
      (Relation.ReflTransGen.tail
        (Relation.ReflTransGen.tail
          (Relation.ReflTransGen.tail
            (Relation.ReflTransGen.tail Relation.ReflTransGen.refl
              (Step.send initSys Dir.E (by decide) (by decide)))
            (Step.recvCurrent demoSys1 Dir.E 0 [] (by decide) (by decide)
              (by decide)))
          (Step.advanceNeighbour demoSys2 Dir.E (by decide) (by decide)
            (by decide)))
        (Step.send demoSys3 Dir.E (by decide) (by decide)))
      (Step.recvEarly demoSys4 Dir.E 1 [] (by decide) (by decide) (by decide)))
    (Step.send demoSys5 Dir.W (by decide) (by decide))

/-- Witness for C3: with the east neighbour one step ahead and its step-1
edge buffered, a further protocol step (receiving the west step-0 edge)
leaves the buffered east message untouched, and the occupant is the edge
for the receiver's next step. -/
theorem pending_early_never_overwritten_witness :
    (demoSys6.dirs Dir.E).buf = some 1 ∧
    (demoSys7.dirs Dir.E).buf = some 1 ∧
    ((1 : Nat) = 1 ∧ (1 : Nat) = demoSys6.t + 1) :=
  ⟨by decide, by decide,
    pending_early_never_overwritten demoPresent demoSys6 demoSys7 Dir.E 1 1
      demo_reachable
      (Step.recvCurrent demoSys6 Dir.W 0 [] (by decide) (by decide) (by decide))
      (by decide) (by decide)⟩

end Heat
